import Mathlib

/-! # minshell: a shallow embedding of `app/main.go`

Go strings are modelled as lists of Unicode code points (`List Char`); the
input is taken to be valid UTF-8, on which `strings.TrimSpace`,
`strings.Fields`, `strings.SplitN`, `strings.Trim`, `strings.HasPrefix` and
`strings.TrimPrefix` act rune by rune exactly as the list functions below.

The process-wide state touched by `execInput` (the `aliases` map, the working
directory, what the shell itself wrote to standard output and standard error,
and the operating-system requests it made) is an explicit `Shell` value.  The
operating system is a parameter `Env`.  Output written by a child process is
outside the model; that a child was run is recorded in `Shell.calls`.
-/

namespace Minshell

/-- A Go string, as its sequence of code points. -/
abbrev Str := List Char

/-! ## The pieces of the Go standard library that `main.go` calls -/

/-- Go `unicode.IsSpace`: the Latin-1 spaces `\t \n \v \f \r`, space, U+0085,
U+00A0, and the other code points with the White_Space property. -/
def isSpace (c : Char) : Bool :=
  let n := c.toNat
  n == 0x09 || n == 0x0A || n == 0x0B || n == 0x0C || n == 0x0D || n == 0x20 ||
  n == 0x85 || n == 0xA0 || n == 0x1680 || (0x2000 ≤ n && n ≤ 0x200A) ||
  n == 0x2028 || n == 0x2029 || n == 0x202F || n == 0x205F || n == 0x3000

/-- Go `strings.TrimSpace`: drop the leading and the trailing white space. -/
def trimSpace (s : Str) : Str :=
  (s.dropWhile isSpace).rdropWhile isSpace

/-- The scanning loop of Go `strings.Fields`: `cur` is the field being read
(empty when the scan is between fields), the second argument is the rest of the
string. -/
def fieldsFrom : Str → Str → List Str
  | cur, [] => if cur = [] then [] else [cur]
  | cur, c :: cs =>
    if isSpace c then
      if cur = [] then fieldsFrom [] cs else cur :: fieldsFrom [] cs
    else fieldsFrom (cur ++ [c]) cs

/-- Go `strings.Fields`: the maximal runs of non-space characters, in order. -/
def fields (s : Str) : List Str :=
  fieldsFrom [] s

/-- Go `strings.Join`. -/
def join (sep : Str) : List Str → Str
  | [] => []
  | [a] => a
  | a :: b :: rest => a ++ sep ++ join sep (b :: rest)

/-- Go `strings.SplitN(s, sep, 2)` for a one-character separator: `[s]` when
`sep` does not occur, else the text before and the text after its first
occurrence. -/
def splitN2 (s : Str) (sep : Char) : List Str :=
  match s.dropWhile (fun c => c != sep) with
  | [] => [s]
  | _ :: after => [s.takeWhile (fun c => c != sep), after]

/-- Go `strings.Trim(s, cutset)`: drop the leading and trailing characters
that occur in `cutset`. -/
def trim (s cutset : Str) : Str :=
  (s.dropWhile (fun c => cutset.contains c)).rdropWhile (fun c => cutset.contains c)

/-- Go `strings.HasPrefix(s, pre)`. -/
def hasPrefix (s pre : Str) : Bool :=
  pre.isPrefixOf s

/-- Go `strings.TrimPrefix(s, pre)`. -/
def trimPrefix (s pre : Str) : Str :=
  if hasPrefix s pre then s.drop pre.length else s

/-! ## State, environment and results -/

/-- The `aliases` map: alias name to command string. -/
abbrev AliasTable := Str → Option Str

/-- Go `aliases[name] = cmd`. -/
def AliasTable.set (t : AliasTable) (name cmd : Str) : AliasTable :=
  fun k => if k = name then some cmd else t k

/-- The table left by `make(map[string]string)`. -/
def AliasTable.empty : AliasTable :=
  fun _ => none

/-- A request `execInput` makes to the operating system. -/
inductive Call
  /-- Records `os.Chdir(path)`. -/
  | chdir (path : Str)
  /-- Records `exec.Command(name, args...).Run()`. -/
  | run (name : Str) (args : List Str)
  deriving DecidableEq, Repr

/-- The operating system as `execInput` sees it. An error is its message. -/
structure Env where
  /-- Result of `os.UserHomeDir()`. -/
  userHomeDir : Except Str Str
  /-- Result of `os.Chdir(path)` in working directory `cwd`: the error, or the
  new working directory. -/
  chdir : (cwd : Str) → (path : Str) → Except Str Str
  /-- Result of running program `name` with `args` in directory `cwd`: the
  error of `cmd.Run()`, or `none` for `nil`. -/
  run : (cwd : Str) → (name : Str) → (args : List Str) → Option Str

/-- The state `execInput` reads and writes. -/
structure Shell where
  /-- The global `aliases`. -/
  aliases : AliasTable
  /-- The working directory of the process. -/
  cwd : Str
  /-- What the shell itself has written to `os.Stdout`. -/
  stdout : Str
  /-- What the shell itself has written to `os.Stderr`. -/
  stderr : Str
  /-- The directory changes and program runs requested so far, oldest first. -/
  calls : List Call

/-- How a call of `execInput` ends. -/
inductive Outcome
  /-- Returns to the caller with the given error (`none` is `nil`). -/
  | returned (err : Option Str)
  /-- Ends the process through `os.Exit(code)`. -/
  | exited (code : Nat)
  /-- A run-time panic (index out of range). -/
  | panicked
  deriving DecidableEq, Repr

/-- The state after a call of `execInput`, and how the call ended. -/
structure Result where
  /-- State after the call. -/
  shell : Shell
  /-- How the call ended. -/
  outcome : Outcome

/-! ## `main.go` -/

/-- Lines 31-35 of `main`: the path shown in the prompt. -/
def displayWd (wd homeDir : Str) : Str :=
  if hasPrefix wd homeDir then '~' :: trimPrefix wd homeDir else wd

/-- Lines 66-86 of `execInput`: the `alias` built-in, given the tokens after
the first one. -/
def defineAlias (w : Shell) (rest : List Str) : Result :=
  match rest with
  | [] =>
    ⟨{ w with stderr := w.stderr ++ "Usage: alias name='command'\n".toList }, .returned none⟩
  | definition :: _ =>
    match splitN2 definition '=' with
    | [before, after] =>
      let name := trimSpace before
      let cmd := trim (trimSpace after) "'\"".toList
      if name = [] ∨ cmd = [] then
        ⟨{ w with stderr := w.stderr ++ "Alias name or command cannot be empty\n".toList },
          .returned none⟩
      else
        ⟨{ w with
            aliases := w.aliases.set name cmd
            stdout := w.stdout ++ ("Alias '".toList ++ name ++ "' set to '".toList ++ cmd
              ++ "'\n".toList) },
          .returned none⟩
    | _ =>
      ⟨{ w with
          stderr := w.stderr ++ "Invalid alias format. Use: alias name='command'\n".toList },
        .returned none⟩

/-- Lines 89-97 of `execInput`: the tokens after the alias lookup on the first
token `a0` (`rest` are the other tokens of the line). -/
def resolveAlias (aliases : AliasTable) (a0 : Str) (rest : List Str) : List Str :=
  match aliases a0 with
  | some aliasedCmd =>
    if rest.length + 1 > 1 then fields (aliasedCmd ++ [' '] ++ join [' '] rest)
    else fields aliasedCmd
  | none => a0 :: rest

/-- Lines 100-128 of `execInput`: the built-ins `cd` and `exit`, and the
external programs. -/
def dispatch (env : Env) (w : Shell) (args : List Str) : Result :=
  match args with
  | [] => ⟨w, .panicked⟩
  | a0 :: rest =>
    if a0 = "cd".toList then
      match rest with
      | [] =>
        match env.userHomeDir with
        | .error err => ⟨w, .returned (some ("failed to get home directory: ".toList ++ err))⟩
        | .ok homeDir =>
          match env.chdir w.cwd homeDir with
          | .error err => ⟨{ w with calls := w.calls ++ [.chdir homeDir] }, .returned (some err)⟩
          | .ok dir =>
            ⟨{ w with cwd := dir, calls := w.calls ++ [.chdir homeDir] }, .returned none⟩
      | path :: _ =>
        match env.chdir w.cwd path with
        | .error err => ⟨{ w with calls := w.calls ++ [.chdir path] }, .returned (some err)⟩
        | .ok dir => ⟨{ w with cwd := dir, calls := w.calls ++ [.chdir path] }, .returned none⟩
    else if a0 = "exit".toList then ⟨w, .exited 0⟩
    else
      ⟨{ w with calls := w.calls ++ [.run a0 rest] },
        match env.run w.cwd a0 rest with
        | some err =>
          .returned (some ("failed to execute '".toList ++ a0 ++ "': ".toList ++ err))
        | none => .returned none⟩

/-- The function `execInput` (lines 52-129). -/
def execInput (env : Env) (w : Shell) (input : Str) : Result :=
  let input := trimSpace input
  if input = [] then ⟨w, .returned none⟩
  else
    match fields input with
    | [] => ⟨w, .returned none⟩
    | a0 :: rest =>
      if a0 = "alias".toList then defineAlias w rest
      else dispatch env w (resolveAlias w.aliases a0 rest)

/-- A shell at start-up: no alias, nothing written, nothing requested. -/
def Shell.init (cwd : Str) : Shell :=
  { aliases := AliasTable.empty, cwd := cwd, stdout := [], stderr := [], calls := [] }

/-- An operating system in which every request succeeds: the home directory is
`/home/u`, every directory change lands in the path asked for, every program
runs without error. -/
def Env.ok : Env :=
  { userHomeDir := .ok "/home/u".toList
    chdir := fun _ path => .ok path
    run := fun _ _ _ => none }

/-- An operating system in which every request fails: no home directory, no
directory to change to, no program to run. -/
def Env.failing : Env :=
  { userHomeDir := .error "$HOME is not defined".toList
    chdir := fun _ path => .error ("chdir ".toList ++ path ++ ": no such file or directory".toList)
    run := fun _ name _ =>
      some ("exec: \"".toList ++ name ++ "\": executable file not found in $PATH".toList) }

/-- Lines 44-46 of `main`: an error returned by `execInput` is printed to
standard error after the label `Command error:`. -/
def reportError (r : Result) : Shell :=
  match r.outcome with
  | .returned (some err) =>
    { r.shell with
        stderr := r.shell.stderr ++ ("Command error: ".toList ++ err ++ "\n".toList) }
  | _ => r.shell

/-- The state after a sequence of `execInput` calls, each made with the
operating system as it is at that moment. -/
def execInputs (w : Shell) : List (Env × Str) → Shell
  | [] => w
  | (env, line) :: more => execInputs (execInput env w line).shell more

/-! ## Vocabulary of the statements -/

/-- A word: non-empty and free of white space, as one token of a line is. -/
def IsWord (t : Str) : Prop :=
  t ≠ [] ∧ ∀ c ∈ t, isSpace c = false

/-- The quote characters that the `alias` built-in strips. -/
def IsQuote (c : Char) : Prop :=
  c = Char.ofNat 39 ∨ c = '"'

instance (t : Str) : Decidable (IsWord t) := by
  unfold IsWord
  infer_instance

instance (c : Char) : Decidable (IsQuote c) := by
  unfold IsQuote
  infer_instance

/-- A command as the `alias` built-in stores it: a word that neither begins nor
ends with a quote character. -/
def IsCommand (c : Str) : Prop :=
  IsWord c ∧ (∀ x, c.head? = some x → ¬ IsQuote x) ∧ (∀ x, c.getLast? = some x → ¬ IsQuote x)

/-- The text `raw` is the command `c` as typed in a definition: `c` itself, or
`c` between quote characters. -/
def Quoted (raw c : Str) : Prop :=
  ∃ ql qr, raw = ql ++ c ++ qr ∧ (∀ x ∈ ql, IsQuote x) ∧ (∀ x ∈ qr, IsQuote x)

/-- The table `t` without its entry for `name`. -/
def AliasTable.erase (t : AliasTable) (name : Str) : AliasTable :=
  fun k => if k = name then none else t k

/-- Every entry of the table has a name that is a word without `=` and a
command that is a word. -/
def WellFormed (t : AliasTable) : Prop :=
  ∀ n c, t n = some c → (IsWord n ∧ '=' ∉ n) ∧ IsWord c

/-- The directory `d` lies under the home directory `h`: it is `h` itself or a
path inside `h`. -/
def Under (d h : Str) : Prop :=
  d = h ∨ ∃ more, d = h ++ '/' :: more

/-! ## Lemmas on the string functions -/

theorem fieldsFrom_space (cur : Str) (c : Char) (s : Str) (hc : isSpace c = true) :
    fieldsFrom cur (c :: s) = (if cur = [] then [] else [cur]) ++ fields s := by
  by_cases h : cur = [] <;> simp [fieldsFrom, fields, hc, h]

theorem fieldsFrom_nonspace (cur t s : Str) (ht : ∀ c ∈ t, isSpace c = false) :
    fieldsFrom cur (t ++ s) = fieldsFrom (cur ++ t) s := by
  induction t generalizing cur with
  | nil => simp
  | cons d t ih =>
    have hd : isSpace d = false := ht d (List.mem_cons_self _ _)
    have ht2 : ∀ c ∈ t, isSpace c = false := fun c hc => ht c (List.mem_cons_of_mem _ hc)
    simp [fieldsFrom, hd, ih _ ht2]

theorem fieldsFrom_append_space (cur v : Str) (c : Char) (s : Str) (hc : isSpace c = true) :
    fieldsFrom cur (v ++ c :: s) = fieldsFrom cur v ++ fields s := by
  induction v generalizing cur with
  | nil =>
    rw [List.nil_append, fieldsFrom_space _ _ _ hc]
    simp [fieldsFrom]
  | cons d v ih =>
    by_cases hd : isSpace d = true
    · by_cases h : cur = [] <;> simp [fieldsFrom, hd, h, ih]
    · simp [fieldsFrom, hd, ih]

theorem fields_append_space (v : Str) (c : Char) (s : Str) (hc : isSpace c = true) :
    fields (v ++ c :: s) = fields v ++ fields s :=
  fieldsFrom_append_space [] v c s hc

theorem fields_word (t : Str) (ht : IsWord t) : fields t = [t] := by
  have h := fieldsFrom_nonspace [] t [] ht.2
  simp only [List.append_nil, List.nil_append] at h
  simp [fields, h, fieldsFrom, ht.1]

theorem fields_join (ts : List Str) (hts : ∀ t ∈ ts, IsWord t) :
    fields (join [' '] ts) = ts := by
  induction ts with
  | nil => simp [join, fields, fieldsFrom]
  | cons a ts ih =>
    have ha : IsWord a := hts a (List.mem_cons_self _ _)
    cases ts with
    | nil => simpa [join] using fields_word a ha
    | cons b ts =>
      have hrest : ∀ t ∈ b :: ts, IsWord t := fun t ht => hts t (List.mem_cons_of_mem _ ht)
      have hsp : isSpace ' ' = true := by decide
      simp only [join, List.append_assoc, List.singleton_append]
      rw [fields_append_space a ' ' _ hsp, fields_word a ha, ih hrest]
      rfl

theorem fieldsFrom_words (cur s : Str) (hcur : ∀ c ∈ cur, isSpace c = false) :
    ∀ t ∈ fieldsFrom cur s, IsWord t := by
  induction s generalizing cur with
  | nil =>
    intro t ht
    by_cases h : cur = []
    · simp [fieldsFrom, h] at ht
    · simp [fieldsFrom, h] at ht
      subst ht
      exact ⟨h, hcur⟩
  | cons d s ih =>
    intro t ht
    by_cases hd : isSpace d = true
    · by_cases h : cur = []
      · simp [fieldsFrom, hd, h] at ht
        exact ih [] (by simp) t ht
      · simp [fieldsFrom, hd, h] at ht
        rcases ht with ht | ht
        · subst ht
          exact ⟨h, hcur⟩
        · exact ih [] (by simp) t ht
    · simp [fieldsFrom, hd] at ht
      refine ih (cur ++ [d]) ?_ t ht
      intro c hc
      rcases List.mem_append.mp hc with hc | hc
      · exact hcur c hc
      · simp at hc
        subst hc
        simpa using hd

theorem fields_words (s : Str) : ∀ t ∈ fields s, IsWord t :=
  fieldsFrom_words [] s (by simp)

theorem fields_dropWhile (s : Str) : fields (s.dropWhile isSpace) = fields s := by
  induction s with
  | nil => rfl
  | cons d s ih =>
    by_cases hd : isSpace d = true
    · simp [List.dropWhile, hd, ih, fields, fieldsFrom]
      simpa [fields] using ih
    · simp [List.dropWhile, hd]

theorem fields_rdropWhile (s : Str) : fields (s.rdropWhile isSpace) = fields s := by
  induction s using List.reverseRecOn with
  | nil => simp
  | append_singleton s d ih =>
    by_cases hd : isSpace d = true
    · rw [List.rdropWhile_concat_pos _ _ _ hd, ih]
      have := fields_append_space s d [] hd
      simpa [fields, fieldsFrom] using this.symm
    · rw [List.rdropWhile_concat_neg _ _ _ hd]

theorem fields_trimSpace (s : Str) : fields (trimSpace s) = fields s := by
  simp [trimSpace, fields_rdropWhile, fields_dropWhile]

theorem trimSpace_nil_fields (s : Str) (h : trimSpace s = []) : fields s = [] := by
  rw [← fields_trimSpace, h]
  rfl

theorem dropWhile_append_all {α : Type} (p : α → Bool) (l r : List α)
    (h : ∀ x ∈ l, p x = true) : (l ++ r).dropWhile p = r.dropWhile p := by
  induction l with
  | nil => rfl
  | cons a l ih =>
    have ha : p a = true := h a (List.mem_cons_self _ _)
    simp [List.dropWhile, ha, ih (fun x hx => h x (List.mem_cons_of_mem _ hx))]

theorem dropWhile_head_not {α : Type} (p : α → Bool) (l : List α)
    (h : ∀ x, l.head? = some x → p x = false) : l.dropWhile p = l := by
  cases l with
  | nil => rfl
  | cons a l => simp [List.dropWhile, h a rfl]

theorem rdropWhile_append_all {α : Type} (p : α → Bool) (l r : List α)
    (h : ∀ x ∈ r, p x = true) : (l ++ r).rdropWhile p = l.rdropWhile p := by
  unfold List.rdropWhile
  rw [List.reverse_append, dropWhile_append_all p _ _ (fun x hx => h x (List.mem_reverse.mp hx))]

theorem rdropWhile_last_not {α : Type} (p : α → Bool) (l : List α)
    (h : ∀ x, l.getLast? = some x → p x = false) : l.rdropWhile p = l := by
  unfold List.rdropWhile
  rw [dropWhile_head_not p l.reverse (by simpa using h), List.reverse_reverse]

theorem trimSpace_nonspace (t : Str) (ht : ∀ c ∈ t, isSpace c = false) : trimSpace t = t := by
  unfold trimSpace
  rw [dropWhile_head_not isSpace t (fun x hx => ht x (List.mem_of_mem_head? hx))]
  exact rdropWhile_last_not isSpace t (fun x hx => ht x (List.mem_of_getLast?_eq_some hx))

theorem quotes_contains (c : Char) : ("'\"".toList).contains c = true ↔ IsQuote c := by
  have h : "'\"".toList = [Char.ofNat 39, '"'] := by decide
  rw [h]
  simp [IsQuote]

theorem trim_wrapped (ql c qr : Str) (hql : ∀ x ∈ ql, IsQuote x) (hqr : ∀ x ∈ qr, IsQuote x)
    (hhead : ∀ x, c.head? = some x → ¬ IsQuote x)
    (hlast : ∀ x, c.getLast? = some x → ¬ IsQuote x) :
    trim (ql ++ c ++ qr) "'\"".toList = c := by
  unfold trim
  have hnot : ∀ x, ¬ IsQuote x → ("'\"".toList).contains x = false := by
    intro x hx
    cases hc : ("'\"".toList).contains x with
    | false => rfl
    | true => exact absurd ((quotes_contains x).mp hc) hx
  rw [List.append_assoc, dropWhile_append_all _ ql _ (fun x hx => (quotes_contains x).mpr (hql x hx))]
  cases c with
  | nil =>
    rw [List.nil_append, List.dropWhile_eq_nil_iff.mpr (fun x hx => (quotes_contains x).mpr (hqr x hx))]
    rfl
  | cons a c =>
    rw [dropWhile_head_not _ (a :: c ++ qr) (fun x hx => hnot x (hhead x (by simpa using hx))),
      rdropWhile_append_all _ _ qr (fun x hx => (quotes_contains x).mpr (hqr x hx))]
    exact rdropWhile_last_not _ _ (fun x hx => hnot x (hlast x hx))

theorem trim_no_quote (c : Str) (hc : ∀ x ∈ c, ¬ IsQuote x) : trim c "'\"".toList = c := by
  have h := trim_wrapped [] c [] (by simp) (by simp)
    (fun x hx => hc x (List.mem_of_mem_head? hx)) (fun x hx => hc x (List.mem_of_getLast?_eq_some hx))
  simpa using h

theorem splitN2_eq (n c : Str) (hn : '=' ∉ n) : splitN2 (n ++ '=' :: c) '=' = [n, c] := by
  have hall : ∀ x ∈ n, (x != '=') = true := by
    intro x hx
    have : x ≠ '=' := fun h => hn (h ▸ hx)
    simpa using this
  have hd : (n ++ '=' :: c).dropWhile (fun x => x != '=') = '=' :: c := by
    rw [dropWhile_append_all _ n _ hall]
    simp [List.dropWhile]
  have ht : (n ++ '=' :: c).takeWhile (fun x => x != '=') = n := by
    rw [List.takeWhile_append_of_pos hall]
    simp [List.takeWhile]
  unfold splitN2
  rw [hd, ht]

theorem splitN2_no_sep (t : Str) (ht : '=' ∉ t) : splitN2 t '=' = [t] := by
  have hd : t.dropWhile (fun x => x != '=') = [] := by
    rw [List.dropWhile_eq_nil_iff]
    intro x hx
    have : x ≠ '=' := fun h => ht (h ▸ hx)
    simpa using this
  unfold splitN2
  rw [hd]

/-- What `execInput` does on a line, given the tokens of the line. -/
theorem execInput_of_fields (env : Env) (w : Shell) (input a0 : Str) (rest : List Str)
    (h : fields input = a0 :: rest) :
    execInput env w input =
      if a0 = "alias".toList then defineAlias w rest
      else dispatch env w (resolveAlias w.aliases a0 rest) := by
  have hne : trimSpace input ≠ [] := by
    intro hnil
    rw [trimSpace_nil_fields input hnil] at h
    exact List.noConfusion h
  unfold execInput
  simp only [hne, if_false, fields_trimSpace, h]

theorem isWord_definition (n raw : Str) (hn : IsWord n) (hraw : ∀ x ∈ raw, isSpace x = false) :
    IsWord (n ++ '=' :: raw) := by
  refine ⟨by simp, ?_⟩
  intro c hc
  rcases List.mem_append.mp hc with hc | hc
  · exact hn.2 c hc
  · rcases List.mem_cons.mp hc with hc | hc
    · subst hc
      decide
    · exact hraw c hc

/-- The `alias` built-in on a well-formed definition `n=raw`. -/
theorem defineAlias_accept (w : Shell) (n raw : Str) (more : List Str) (hn : IsWord n)
    (hne : '=' ∉ n) (hraw : ∀ x ∈ raw, isSpace x = false) (hc : trim raw "'\"".toList ≠ []) :
    defineAlias w ((n ++ '=' :: raw) :: more) =
      ⟨{ w with
          aliases := w.aliases.set n (trim raw "'\"".toList)
          stdout := w.stdout ++ ("Alias '".toList ++ n ++ "' set to '".toList
            ++ trim raw "'\"".toList ++ "'\n".toList) },
        .returned none⟩ := by
  unfold defineAlias
  simp only [splitN2_eq n raw hne, trimSpace_nonspace n hn.2, trimSpace_nonspace raw hraw]
  rw [if_neg (fun h => h.elim hn.1 hc)]

/-- What `execInput` does on the line made of the words `a0 :: rest`, single
spaces between them. -/
theorem execInput_join (env : Env) (w : Shell) (a0 : Str) (rest : List Str)
    (h : ∀ t ∈ a0 :: rest, IsWord t) :
    execInput env w (join [' '] (a0 :: rest)) =
      if a0 = "alias".toList then defineAlias w rest
      else dispatch env w (resolveAlias w.aliases a0 rest) :=
  execInput_of_fields env w _ a0 rest (fields_join _ h)

theorem isWord_alias : IsWord "alias".toList := by
  refine ⟨by decide, ?_⟩
  decide

/-- The alias lookup when the first token is an alias name. -/
theorem resolveAlias_some (t : AliasTable) (a0 v : Str) (rest : List Str)
    (hrest : ∀ x ∈ rest, IsWord x) (h : t a0 = some v) :
    resolveAlias t a0 rest = fields v ++ rest := by
  unfold resolveAlias
  rw [h]
  cases rest with
  | nil => simp
  | cons b rest =>
    have hsp : isSpace ' ' = true := by decide
    simp only [List.length_cons, List.append_assoc, List.singleton_append]
    rw [if_pos (by omega), fields_append_space v ' ' _ hsp, fields_join _ hrest]

theorem dispatch_exit (env : Env) (w : Shell) (rest : List Str) :
    dispatch env w ("exit".toList :: rest) = ⟨w, .exited 0⟩ := by
  unfold dispatch
  simp only
  rw [if_neg (by decide)]
  exact if_pos trivial

theorem hasPrefix_append (h rest : Str) : hasPrefix (h ++ rest) h = true := by
  unfold hasPrefix
  rw [List.isPrefixOf_iff_prefix]
  exact List.prefix_append h rest

theorem displayWd_append (h rest : Str) : displayWd (h ++ rest) h = '~' :: rest := by
  unfold displayWd trimPrefix
  simp [hasPrefix_append]

theorem trim_all_quotes (c : Str) (hc : ∀ x ∈ c, IsQuote x) : trim c "'\"".toList = [] := by
  unfold trim
  rw [List.dropWhile_eq_nil_iff.mpr (fun x hx => (quotes_contains x).mpr (hc x hx))]
  rfl

/-- What the `alias` built-in does is fixed by the tokens after `alias`: it
sets at most one entry of the table and appends fixed texts to the two streams,
whatever the state. -/
theorem defineAlias_shape (rest : List Str) :
    ∃ (upd : Option (Str × Str)) (out err : Str), ∀ w : Shell,
      defineAlias w rest =
        ⟨{ w with
            aliases := fun k => match upd with
              | none => w.aliases k
              | some (n, c) => w.aliases.set n c k
            stdout := w.stdout ++ out
            stderr := w.stderr ++ err }, .returned none⟩ := by
  cases rest with
  | nil =>
    exact ⟨none, [], "Usage: alias name='command'\n".toList, fun w => by simp [defineAlias]⟩
  | cons t more =>
    rcases hsp : splitN2 t '=' with _ | ⟨a, _ | ⟨b, _ | ⟨c, l⟩⟩⟩
    · exact ⟨none, [], "Invalid alias format. Use: alias name='command'\n".toList,
        fun w => by simp [defineAlias, hsp]⟩
    · exact ⟨none, [], "Invalid alias format. Use: alias name='command'\n".toList,
        fun w => by simp [defineAlias, hsp]⟩
    · by_cases hemp : trimSpace a = [] ∨ trim (trimSpace b) "'\"".toList = []
      · refine ⟨none, [], "Alias name or command cannot be empty\n".toList, fun w => ?_⟩
        unfold defineAlias
        simp only [hsp]
        rw [if_pos hemp]
        simp
      · refine ⟨some (trimSpace a, trim (trimSpace b) "'\"".toList),
          "Alias '".toList ++ trimSpace a ++ "' set to '".toList
            ++ trim (trimSpace b) "'\"".toList ++ "'\n".toList, [], fun w => ?_⟩
        unfold defineAlias
        simp only [hsp]
        rw [if_neg hemp]
        simp
    · exact ⟨none, [], "Invalid alias format. Use: alias name='command'\n".toList,
        fun w => by simp [defineAlias, hsp]⟩

theorem isQuote_not_space (x : Char) (hx : IsQuote x) : isSpace x = false := by
  rcases hx with hx | hx <;> subst hx <;> decide

theorem quoted_nonspace (raw c : Str) (hc : IsCommand c) (hq : Quoted raw c) :
    ∀ x ∈ raw, isSpace x = false := by
  obtain ⟨ql, qr, hraw, hql, hqr⟩ := hq
  intro x hx
  rw [hraw] at hx
  rcases List.mem_append.mp hx with hx | hx
  · rcases List.mem_append.mp hx with hx | hx
    · exact isQuote_not_space x (hql x hx)
    · exact hc.1.2 x hx
  · exact isQuote_not_space x (hqr x hx)

theorem trim_quoted (raw c : Str) (hc : IsCommand c) (hq : Quoted raw c) :
    trim raw "'\"".toList = c := by
  obtain ⟨ql, qr, hraw, hql, hqr⟩ := hq
  rw [hraw]
  exact trim_wrapped ql c qr hql hqr hc.2.1 hc.2.2

/-- The line `alias n=raw`, for a name `n` and a command `c` typed as `raw`. -/
theorem execInput_alias_line (env : Env) (w : Shell) (n raw c : Str) (hn : IsWord n)
    (hne : '=' ∉ n) (hc : IsCommand c) (hq : Quoted raw c) :
    execInput env w (join [' '] ["alias".toList, n ++ '=' :: raw]) =
      ⟨{ w with
          aliases := w.aliases.set n c
          stdout := w.stdout ++ ("Alias '".toList ++ n ++ "' set to '".toList
            ++ c ++ "'\n".toList) },
        .returned none⟩ := by
  have hraw := quoted_nonspace raw c hc hq
  have htrim := trim_quoted raw c hc hq
  rw [execInput_join env w _ _ (by
      intro t ht
      simp at ht
      rcases ht with ht | ht <;> subst ht
      · exact isWord_alias
      · exact isWord_definition n raw hn hraw),
    if_pos rfl, defineAlias_accept w n raw [] hn hne hraw (by rw [htrim]; exact hc.1.1), htrim]

theorem AliasTable.set_set (t : AliasTable) (n c1 c2 : Str) :
    (t.set n c1).set n c2 = t.set n c2 := by
  funext k
  by_cases hk : k = n <;> simp [AliasTable.set, hk]

theorem dispatch_run (env : Env) (w : Shell) (b : Str) (rest : List Str)
    (hcd : b ≠ "cd".toList) (hexit : b ≠ "exit".toList) :
    dispatch env w (b :: rest) =
      ⟨{ w with calls := w.calls ++ [.run b rest] },
        match env.run w.cwd b rest with
        | some err =>
          .returned (some ("failed to execute '".toList ++ b ++ "': ".toList ++ err))
        | none => .returned none⟩ := by
  unfold dispatch
  simp only
  rw [if_neg hcd, if_neg hexit]

theorem rest_words (line a0 : Str) (rest : List Str) (h : fields line = a0 :: rest) :
    ∀ x ∈ rest, IsWord x := by
  intro x hx
  exact fields_words line x (by rw [h]; exact List.mem_cons_of_mem _ hx)

theorem trimSpace_blank (line : Str) (h : ∀ c ∈ line, isSpace c = true) : trimSpace line = [] := by
  unfold trimSpace
  rw [List.dropWhile_eq_nil_iff.mpr h]
  rfl

theorem dispatch_cd_home (env : Env) (w : Shell) :
    dispatch env w ["cd".toList] =
      match env.userHomeDir with
      | .error err => ⟨w, .returned (some ("failed to get home directory: ".toList ++ err))⟩
      | .ok homeDir =>
        match env.chdir w.cwd homeDir with
        | .error err => ⟨{ w with calls := w.calls ++ [.chdir homeDir] }, .returned (some err)⟩
        | .ok dir =>
          ⟨{ w with cwd := dir, calls := w.calls ++ [.chdir homeDir] }, .returned none⟩ := by
  unfold dispatch
  simp only
  exact if_pos trivial

theorem dispatch_cd_path (env : Env) (w : Shell) (path : Str) (more : List Str) :
    dispatch env w ("cd".toList :: path :: more) =
      match env.chdir w.cwd path with
      | .error err => ⟨{ w with calls := w.calls ++ [.chdir path] }, .returned (some err)⟩
      | .ok dir => ⟨{ w with cwd := dir, calls := w.calls ++ [.chdir path] }, .returned none⟩ := by
  unfold dispatch
  simp only
  exact if_pos trivial

theorem resolveAlias_none (t : AliasTable) (a0 : Str) (rest : List Str) (h : t a0 = none) :
    resolveAlias t a0 rest = a0 :: rest := by
  unfold resolveAlias
  rw [h]

theorem dispatch_outcome (env : Env) (w : Shell) (c : Str) (args : List Str) :
    (c = "exit".toList ∧ (dispatch env w (c :: args)).outcome = .exited 0) ∨
    (c ≠ "exit".toList ∧ ∃ err, (dispatch env w (c :: args)).outcome = .returned err) := by
  by_cases hexit : c = "exit".toList
  · subst hexit
    exact Or.inl ⟨rfl, by rw [dispatch_exit]⟩
  · refine Or.inr ⟨hexit, ?_⟩
    by_cases hcd : c = "cd".toList
    · subst hcd
      cases args with
      | nil =>
        rw [dispatch_cd_home]
        cases hh : env.userHomeDir with
        | error e => exact ⟨_, rfl⟩
        | ok home =>
          cases hch : env.chdir w.cwd home with
          | error e => exact ⟨some e, by simp only [hch]⟩
          | ok dir => exact ⟨none, by simp only [hch]⟩
      | cons p more =>
        rw [dispatch_cd_path]
        cases hch : env.chdir w.cwd p with
        | error e => exact ⟨some e, rfl⟩
        | ok dir => exact ⟨none, rfl⟩
    · rw [dispatch_run env w c args hcd hexit]
      cases hr : env.run w.cwd c args with
      | some e => exact ⟨_, rfl⟩
      | none => exact ⟨none, rfl⟩

theorem resolveAlias_ne_nil (t : AliasTable) (a0 : Str) (rest : List Str)
    (hrest : ∀ x ∈ rest, IsWord x) (ht : ∀ n v, t n = some v → fields v ≠ []) :
    resolveAlias t a0 rest ≠ [] := by
  cases h : t a0 with
  | none =>
    rw [resolveAlias_none t a0 rest h]
    exact List.cons_ne_nil _ _
  | some v =>
    rw [resolveAlias_some t a0 v rest hrest h]
    intro hnil
    exact ht a0 v h (List.append_eq_nil.mp hnil).1

theorem execInput_no_token (env : Env) (w : Shell) (line : Str) (h : fields line = []) :
    execInput env w line = ⟨w, .returned none⟩ := by
  unfold execInput
  by_cases hne : trimSpace line = []
  · simp only [hne, if_true]
  · simp only [hne, if_false, fields_trimSpace, h]

theorem defineAlias_outcome (w : Shell) (rest : List Str) :
    (defineAlias w rest).outcome = .returned none := by
  obtain ⟨upd, out, err, hshape⟩ := defineAlias_shape rest
  rw [hshape w]

theorem dispatch_aliases (env : Env) (w : Shell) (args : List Str) :
    (dispatch env w args).shell.aliases = w.aliases := by
  cases args with
  | nil => rfl
  | cons c args =>
    by_cases hexit : c = "exit".toList
    · subst hexit
      rw [dispatch_exit]
    · by_cases hcd : c = "cd".toList
      · subst hcd
        cases args with
        | nil =>
          rw [dispatch_cd_home]
          cases hh : env.userHomeDir with
          | error e => rfl
          | ok home => cases hch : env.chdir w.cwd home <;> simp only [hch]
        | cons p more =>
          rw [dispatch_cd_path]
          cases hch : env.chdir w.cwd p <;> rfl
      · rw [dispatch_run env w c args hcd hexit]

/-- The alias table after `execInput`: the table before, or the table before
with one entry set by an `alias` line. -/
theorem execInput_aliases (env : Env) (w : Shell) (line : Str) :
    (execInput env w line).shell.aliases = w.aliases ∨
    ∃ rest n c, fields line = "alias".toList :: rest ∧
      (execInput env w line).shell.aliases = w.aliases.set n c := by
  cases h : fields line with
  | nil =>
    rw [execInput_no_token env w line h]
    exact Or.inl rfl
  | cons a0 rest =>
    rw [execInput_of_fields env w line a0 rest h]
    by_cases ha : a0 = "alias".toList
    · rw [if_pos ha]
      obtain ⟨upd, out, err, hshape⟩ := defineAlias_shape rest
      rw [hshape w]
      rcases upd with _ | ⟨n, c⟩
      · exact Or.inl rfl
      · exact Or.inr ⟨rest, n, c, by rw [ha], rfl⟩
    · rw [if_neg ha]
      exact Or.inl (dispatch_aliases env w _)

theorem split_at_eq (t : Str) (h : '=' ∈ t) : ∃ nm raw, t = nm ++ '=' :: raw ∧ '=' ∉ nm := by
  induction t with
  | nil => exact absurd h (List.not_mem_nil _)
  | cons a t ih =>
    by_cases ha : a = '='
    · exact ⟨[], t, by rw [ha]; rfl, List.not_mem_nil _⟩
    · have ht : '=' ∈ t := by
        rcases List.mem_cons.mp h with h1 | h1
        · exact absurd h1.symm ha
        · exact h1
      obtain ⟨nm, raw, hnm, hno⟩ := ih ht
      refine ⟨a :: nm, raw, by rw [hnm]; rfl, ?_⟩
      intro hmem
      rcases List.mem_cons.mp hmem with h1 | h1
      · exact ha h1.symm
      · exact hno h1

theorem trim_subset (s cutset : Str) : ∀ x ∈ trim s cutset, x ∈ s := by
  intro x hx
  unfold trim at hx
  exact (List.dropWhile_suffix _).subset ((List.rdropWhile_prefix _ _).subset hx)

theorem defineAlias_first (w : Shell) (t : Str) (more : List Str) :
    defineAlias w (t :: more) = defineAlias w [t] := rfl

/-- The table after the `alias` built-in: unchanged, or with one entry set
whose name is a word without `=` and whose command is a word. -/
theorem defineAlias_aliases (w : Shell) (rest : List Str) (hrest : ∀ x ∈ rest, IsWord x) :
    (defineAlias w rest).shell.aliases = w.aliases ∨
    ∃ n c, (IsWord n ∧ '=' ∉ n) ∧ IsWord c ∧
      (defineAlias w rest).shell.aliases = w.aliases.set n c := by
  cases rest with
  | nil => exact Or.inl rfl
  | cons t more =>
    have htw : IsWord t := hrest t (List.mem_cons_self _ _)
    by_cases heq : '=' ∈ t
    · obtain ⟨nm, raw, ht, hnm⟩ := split_at_eq t heq
      have hns : ∀ x ∈ nm, isSpace x = false := fun x hx => htw.2 x (by rw [ht]; simp [hx])
      have hrs : ∀ x ∈ raw, isSpace x = false := fun x hx => htw.2 x (by rw [ht]; simp [hx])
      unfold defineAlias
      simp only [ht, splitN2_eq nm raw hnm, trimSpace_nonspace nm hns,
        trimSpace_nonspace raw hrs]
      by_cases hemp : nm = [] ∨ trim raw "'\"".toList = []
      · rw [if_pos hemp]
        exact Or.inl rfl
      · rw [if_neg hemp]
        refine Or.inr ⟨nm, trim raw "'\"".toList, ⟨⟨fun h => hemp (Or.inl h), hns⟩, hnm⟩,
          ⟨fun h => hemp (Or.inr h), fun x hx => hrs x (trim_subset _ _ x hx)⟩, rfl⟩
    · unfold defineAlias
      simp only [splitN2_no_sep t heq]
      exact Or.inl trivial

theorem wellFormed_set (t : AliasTable) (n c : Str) (ht : WellFormed t)
    (hn : IsWord n ∧ '=' ∉ n) (hc : IsWord c) : WellFormed (t.set n c) := by
  intro k v hkv
  unfold AliasTable.set at hkv
  by_cases hk : k = n
  · rw [if_pos hk] at hkv
    rw [hk, ← Option.some.inj hkv]
    exact ⟨hn, hc⟩
  · rw [if_neg hk] at hkv
    exact ht k v hkv

theorem execInput_wellFormed (env : Env) (w : Shell) (line : Str) (hw : WellFormed w.aliases) :
    WellFormed (execInput env w line).shell.aliases := by
  cases h : fields line with
  | nil =>
    rw [execInput_no_token env w line h]
    exact hw
  | cons a0 rest =>
    rw [execInput_of_fields env w line a0 rest h]
    by_cases ha : a0 = "alias".toList
    · rw [if_pos ha]
      rcases defineAlias_aliases w rest (rest_words line a0 rest h) with hsame | ⟨n, c, hn, hc, hset⟩
      · rw [hsame]
        exact hw
      · rw [hset]
        exact wellFormed_set _ n c hw hn hc
    · rw [if_neg ha, dispatch_aliases]
      exact hw

theorem execInputs_wellFormed (steps : List (Env × Str)) (w : Shell)
    (hw : WellFormed w.aliases) : WellFormed (execInputs w steps).aliases := by
  induction steps generalizing w with
  | nil => exact hw
  | cons step more ih =>
    obtain ⟨env, line⟩ := step
    exact ih _ (execInput_wellFormed env w line hw)

theorem wellFormed_empty : WellFormed AliasTable.empty := by
  intro n c h
  exact Option.noConfusion h

theorem wellFormed_fields (t : AliasTable) (ht : WellFormed t) :
    ∀ n v, t n = some v → fields v ≠ [] := by
  intro n v hv
  rw [fields_word v (ht n v hv).2]
  exact List.cons_ne_nil _ _

/-- A line whose first token is `alias`, run on a table and on the same table
without its entry named `alias`. -/
theorem execInput_alias_erase (env : Env) (w : Shell) (line : Str) (rest : List Str)
    (h : fields line = "alias".toList :: rest) :
    (execInput env w line).outcome = .returned none ∧
    (execInput env w line).shell.calls = w.calls ∧
    (execInput env w line).shell.cwd = w.cwd ∧
    (execInput env w line).outcome
      = (execInput env { w with aliases := w.aliases.erase "alias".toList } line).outcome ∧
    (execInput env w line).shell.stdout
      = (execInput env { w with aliases := w.aliases.erase "alias".toList } line).shell.stdout ∧
    (execInput env w line).shell.stderr
      = (execInput env { w with aliases := w.aliases.erase "alias".toList } line).shell.stderr ∧
    ∀ k, (execInput env w line).shell.aliases k =
      if k = "alias".toList then
        ((execInput env { w with aliases := w.aliases.erase "alias".toList }
          line).shell.aliases k).orElse (fun _ => w.aliases k)
      else
        (execInput env { w with aliases := w.aliases.erase "alias".toList } line).shell.aliases k
    := by
  obtain ⟨upd, out, err, hshape⟩ := defineAlias_shape rest
  rw [execInput_of_fields env w line _ rest h,
    execInput_of_fields env _ line _ rest h, if_pos rfl, if_pos rfl, hshape w, hshape _]
  refine ⟨rfl, rfl, rfl, rfl, rfl, rfl, ?_⟩
  clear hshape h
  intro k
  rcases upd with _ | ⟨n, c⟩
  · by_cases hk : k = "alias".toList <;> simp_all [AliasTable.erase]
  · by_cases hk : k = "alias".toList <;> by_cases hkn : k = n <;>
      simp_all [AliasTable.erase, AliasTable.set]

/-- When every command string of the table holds a word, `execInput` ends the
process exactly on a resolved first token `exit`, and returns otherwise. -/
theorem execInput_exit_iff (env : Env) (w : Shell) (line : Str)
    (hw : ∀ n v, w.aliases n = some v → fields v ≠ []) :
    ((execInput env w line).outcome = .exited 0 ↔
      ∃ a0 rest args, fields line = a0 :: rest ∧ a0 ≠ "alias".toList ∧
        resolveAlias w.aliases a0 rest = "exit".toList :: args) ∧
    ((execInput env w line).outcome ≠ .exited 0 →
      ∃ err, (execInput env w line).outcome = .returned err) := by
  cases h : fields line with
  | nil =>
    rw [execInput_no_token env w line h]
    refine ⟨⟨fun hc => Outcome.noConfusion hc, ?_⟩, fun _ => ⟨none, rfl⟩⟩
    rintro ⟨a0, rest, args, hf, _⟩
    exact List.noConfusion hf
  | cons a0 rest =>
    rw [execInput_of_fields env w line a0 rest h]
    by_cases ha : a0 = "alias".toList
    · rw [if_pos ha, defineAlias_outcome]
      refine ⟨⟨fun hc => Outcome.noConfusion hc, ?_⟩, fun _ => ⟨none, rfl⟩⟩
      rintro ⟨b0, rest2, args, hf, hb, _⟩
      exact absurd ((List.cons.inj hf).1 ▸ ha) hb
    · rw [if_neg ha]
      have hne := resolveAlias_ne_nil w.aliases a0 rest (rest_words line a0 rest h) hw
      cases hres : resolveAlias w.aliases a0 rest with
      | nil => exact absurd hres hne
      | cons c args =>
        rcases dispatch_outcome env w c args with ⟨hc, hout⟩ | ⟨hc, err, hout⟩
        · refine ⟨⟨fun _ => ⟨a0, rest, args, rfl, ha, ?_⟩, fun _ => hout⟩,
            fun hno => absurd hout hno⟩
          rw [hres, hc]
        · refine ⟨⟨fun hex => ?_, ?_⟩, fun _ => ⟨err, hout⟩⟩
          · rw [hout] at hex
            exact Outcome.noConfusion hex
          · rintro ⟨b0, rest2, args2, hf, _, hr⟩
            obtain ⟨hb0, hrest2⟩ := List.cons.inj hf
            subst hb0
            subst hrest2
            rw [hres] at hr
            exact absurd (List.cons.inj hr).1 hc

/-! ## The claims -/

/-- C1 (the code departs from the claim): from an empty table, `alias ll='ls -la'`
stores `ls` alone under `ll` and confirms just that, and `ll /tmp` then runs
`ls` with the single argument `/tmp`: the word `-la` is lost. -/
theorem C1_alias_ll_drops_la (env : Env) (cwd : Str) :
    (execInput env (Shell.init cwd) "alias ll='ls -la'\n".toList).shell.aliases "ll".toList
      = some "ls".toList ∧
    (execInput env (Shell.init cwd) "alias ll='ls -la'\n".toList).shell.stdout
      = "Alias 'll' set to 'ls'\n".toList ∧
    (execInput env (execInput env (Shell.init cwd) "alias ll='ls -la'\n".toList).shell
        "ll /tmp\n".toList).shell.calls
      = [Call.run "ls".toList ["/tmp".toList]] ∧
    (execInput env (execInput env (Shell.init cwd) "alias ll='ls -la'\n".toList).shell
        "ll /tmp\n".toList).shell.calls
      ≠ [Call.run "ls".toList ["-la".toList, "/tmp".toList]] := by
  refine ⟨rfl, rfl, rfl, fun h => ?_⟩
  have h3 : (execInput env (execInput env (Shell.init cwd) "alias ll='ls -la'\n".toList).shell
      "ll /tmp\n".toList).shell.calls = [Call.run "ls".toList ["/tmp".toList]] := rfl
  exact absurd (h3.symm.trans h) (by decide)

/-- C2 (the claim as stated fails): three definitions after which the alias
line and the command line differ in the programs they run.  With `alias` as the
name, `alias a b` is read as a definition while `ls a b` runs `ls`; with a
command that is itself an alias name (`ls` for `echo`), `ll a b` runs `ls`
while `ls a b` runs `echo`; with `alias` as the command, `x a b` runs a program
called `alias` while `alias a b` is read as a definition. -/
theorem C2_counterexample :
    (execInput Env.ok (execInput Env.ok (Shell.init []) "alias alias=ls".toList).shell
        "alias a b".toList).shell.calls
      ≠ (execInput Env.ok (execInput Env.ok (Shell.init []) "alias alias=ls".toList).shell
        "ls a b".toList).shell.calls ∧
    (execInput Env.ok (execInput Env.ok
        (execInput Env.ok (Shell.init []) "alias ls=echo".toList).shell
        "alias ll=ls".toList).shell "ll a b".toList).shell.calls
      ≠ (execInput Env.ok (execInput Env.ok
        (execInput Env.ok (Shell.init []) "alias ls=echo".toList).shell
        "alias ll=ls".toList).shell "ls a b".toList).shell.calls ∧
    (execInput Env.ok (execInput Env.ok (Shell.init []) "alias x=alias".toList).shell
        "x a b".toList).shell.calls
      ≠ (execInput Env.ok (execInput Env.ok (Shell.init []) "alias x=alias".toList).shell
        "alias a b".toList).shell.calls := by
  decide

/-- C2 (amended): let `n` and `cmd` be words other than `alias`, `n` without
`=`, `cmd` without quote characters, and let `cmd` be `n` itself or not an
alias name of the table.  Then `alias n=cmd` stores `cmd` under `n`, and in the
resulting state the line `n a1 a2` has the same result (state and outcome) as
the line `cmd a1 a2`, for all words `a1`, `a2`. -/
theorem C2_alias_invocation_as_command (env : Env) (w : Shell) (n cmd a1 a2 : Str)
    (hn : IsWord n) (hne : '=' ∉ n) (hcmd : IsWord cmd) (hq : ∀ x ∈ cmd, ¬ IsQuote x)
    (ha1 : IsWord a1) (ha2 : IsWord a2)
    (hna : n ≠ "alias".toList) (hca : cmd ≠ "alias".toList)
    (hfree : cmd = n ∨ w.aliases cmd = none) :
    (execInput env w (join [' '] ["alias".toList, n ++ '=' :: cmd])).shell.aliases n
      = some cmd ∧
    execInput env (execInput env w (join [' '] ["alias".toList, n ++ '=' :: cmd])).shell
        (join [' '] [n, a1, a2])
      = execInput env (execInput env w (join [' '] ["alias".toList, n ++ '=' :: cmd])).shell
        (join [' '] [cmd, a1, a2]) := by
  have hdef : IsWord (n ++ '=' :: cmd) := isWord_definition n cmd hn hcmd.2
  have htrim : trim cmd "'\"".toList = cmd := trim_no_quote cmd hq
  have hargs : ∀ x ∈ [a1, a2], IsWord x := by
    intro x hx
    simp at hx
    rcases hx with hx | hx <;> subst hx <;> assumption
  rw [execInput_join env w _ _ (by
      intro t ht
      simp at ht
      rcases ht with ht | ht <;> subst ht
      · exact isWord_alias
      · exact hdef),
    if_pos rfl, defineAlias_accept w n cmd [] hn hne hcmd.2 (by rw [htrim]; exact hcmd.1), htrim]
  refine ⟨by simp [AliasTable.set], ?_⟩
  rw [execInput_join env _ n [a1, a2] (by
      intro t ht
      rcases List.mem_cons.mp ht with ht | ht
      · subst ht; exact hn
      · exact hargs t ht),
    execInput_join env _ cmd [a1, a2] (by
      intro t ht
      rcases List.mem_cons.mp ht with ht | ht
      · subst ht; exact hcmd
      · exact hargs t ht),
    if_neg hna, if_neg hca]
  have hres_n : resolveAlias (w.aliases.set n cmd) n [a1, a2] = [cmd, a1, a2] := by
    rw [resolveAlias_some _ n cmd _ hargs (by simp [AliasTable.set]), fields_word cmd hcmd]
    rfl
  have hres_c : resolveAlias (w.aliases.set n cmd) cmd [a1, a2] = [cmd, a1, a2] := by
    by_cases hcn : cmd = n
    · rw [resolveAlias_some _ cmd cmd _ hargs (by simp [AliasTable.set, hcn]),
        fields_word cmd hcmd]
      rfl
    · have hnone : w.aliases cmd = none := hfree.resolve_left hcn
      simp [resolveAlias, AliasTable.set, hcn, hnone]
  simp only [hres_n, hres_c]

/-- Witness for C2 (amended): `alias ll=ls`, then `ll -l /tmp` against
`ls -l /tmp`, from the empty table. -/
theorem C2_alias_invocation_as_command_witness :
    (execInput Env.ok (Shell.init [])
        (join [' '] ["alias".toList, "ll".toList ++ '=' :: "ls".toList])).shell.aliases
        "ll".toList = some "ls".toList ∧
    execInput Env.ok (execInput Env.ok (Shell.init [])
        (join [' '] ["alias".toList, "ll".toList ++ '=' :: "ls".toList])).shell
        (join [' '] ["ll".toList, "-l".toList, "/tmp".toList])
      = execInput Env.ok (execInput Env.ok (Shell.init [])
        (join [' '] ["alias".toList, "ll".toList ++ '=' :: "ls".toList])).shell
        (join [' '] ["ls".toList, "-l".toList, "/tmp".toList]) :=
  C2_alias_invocation_as_command Env.ok (Shell.init []) "ll".toList "ls".toList "-l".toList
    "/tmp".toList (by unfold IsWord; decide) (by decide) (by unfold IsWord; decide)
    (by unfold IsQuote; decide) (by unfold IsWord; decide) (by unfold IsWord; decide)
    (by decide) (by decide) (Or.inr rfl)

/-- C3 (the claim as stated fails): once `exit` is an alias for `ls`, the line
`exit` runs the program `ls` and returns to the caller; the process does not
end. -/
theorem C3_counterexample :
    (execInput Env.ok (Shell.init []) "alias exit=ls".toList).shell.aliases "exit".toList
      = some "ls".toList ∧
    (execInput Env.ok (execInput Env.ok (Shell.init []) "alias exit=ls".toList).shell
        "exit".toList).outcome = Outcome.returned none ∧
    (execInput Env.ok (execInput Env.ok (Shell.init []) "alias exit=ls".toList).shell
        "exit".toList).shell.calls = [Call.run "ls".toList []] := by
  decide

/-- C3 (amended): when `exit` is not an alias name, or is an alias for a command
whose first word is `exit`, every line whose first token is `exit` ends the
process with status 0, the state left as it was. -/
theorem C3_exit_terminates (env : Env) (w : Shell) (line : Str) (rest : List Str)
    (h : fields line = "exit".toList :: rest)
    (hex : w.aliases "exit".toList = none ∨
      ∃ v vs, w.aliases "exit".toList = some v ∧ fields v = "exit".toList :: vs) :
    execInput env w line = ⟨w, .exited 0⟩ := by
  rw [execInput_of_fields env w line _ rest h, if_neg (by decide)]
  rcases hex with hnone | ⟨v, vs, hv, hvs⟩
  · simp only [resolveAlias, hnone]
    exact dispatch_exit env w rest
  · have hrest : ∀ x ∈ rest, IsWord x := by
      intro x hx
      exact fields_words line x (by rw [h]; exact List.mem_cons_of_mem _ hx)
    rw [resolveAlias_some _ _ v rest hrest hv, hvs]
    exact dispatch_exit env w (vs ++ rest)

/-- Witness for C3 (amended): the line `exit now` in a fresh shell. -/
theorem C3_exit_terminates_witness :
    execInput Env.ok (Shell.init []) "exit now\n".toList = ⟨Shell.init [], .exited 0⟩ :=
  C3_exit_terminates Env.ok (Shell.init []) "exit now\n".toList ["now".toList] (by decide)
    (Or.inl rfl)

/-- C4 (the code departs from the claim): `/home/alice` is not under the home
directory `/home/al`, yet the prompt shows `~ice` for it. -/
theorem C4_prefix_of_sibling_directory :
    ¬ Under "/home/alice".toList "/home/al".toList ∧
    displayWd "/home/alice".toList "/home/al".toList = "~ice".toList ∧
    displayWd "/home/alice".toList "/home/al".toList ≠ "/home/alice".toList := by
  refine ⟨?_, by decide, by decide⟩
  rintro (h | ⟨more, h⟩)
  · exact absurd h (by decide)
  · have h2 : "/home/alice".toList = '/' :: 'h' :: 'o' :: 'm' :: 'e' :: '/' :: 'a' :: 'l' ::
        '/' :: more := h
    simp at h2

/-- C5: when the working directory `d` lies under the home directory `h`, so
that `d` is `h` followed by some `rest` (empty, or a separator and further
components), the prompt shows `~` followed by exactly that `rest`. -/
theorem C5_home_abbreviated (d h : Str) (hu : Under d h) :
    ∃ rest, d = h ++ rest ∧ displayWd d h = '~' :: rest := by
  rcases hu with hu | ⟨more, hu⟩
  · refine ⟨[], by simpa using hu, ?_⟩
    have := displayWd_append h []
    rw [List.append_nil] at this
    rw [hu, this]
  · exact ⟨'/' :: more, hu, by rw [hu]; exact displayWd_append h _⟩

/-- Witness for C5: `/home/u/src/app` under `/home/u`. -/
theorem C5_home_abbreviated_witness :
    ∃ rest, "/home/u/src/app".toList = "/home/u".toList ++ rest ∧
      displayWd "/home/u/src/app".toList "/home/u".toList = '~' :: rest :=
  C5_home_abbreviated "/home/u/src/app".toList "/home/u".toList
    (Or.inr ⟨"src/app".toList, by decide⟩)

/-- C6: on a line whose first token is `alias` and which has no further token,
or whose next token `t` has no `=`, or has nothing before its first `=`, or has
only quote characters (or nothing) after it, `execInput` appends a non-empty
message to standard error, returns no error, and leaves the alias table and the
rest of the state as they were. -/
theorem C6_malformed_alias_rejected (env : Env) (w : Shell) (line : Str) (rest : List Str)
    (h : fields line = "alias".toList :: rest)
    (hbad : rest = [] ∨ ∃ t more, rest = t :: more ∧
      ('=' ∉ t ∨ ∃ nm c, t = nm ++ '=' :: c ∧ '=' ∉ nm ∧ (nm = [] ∨ ∀ x ∈ c, IsQuote x))) :
    ∃ msg, msg ≠ [] ∧
      execInput env w line = ⟨{ w with stderr := w.stderr ++ msg }, .returned none⟩ := by
  rw [execInput_of_fields env w line _ rest h, if_pos rfl]
  rcases hbad with hnil | ⟨t, more, hrest, hno | ⟨nm, c, ht, hnm, hempty⟩⟩
  · subst hnil
    exact ⟨_, by decide, rfl⟩
  · subst hrest
    refine ⟨"Invalid alias format. Use: alias name='command'\n".toList, by decide, ?_⟩
    unfold defineAlias
    simp only [splitN2_no_sep t hno]
  · subst hrest
    have htw : IsWord t := fields_words line t (by rw [h]; simp)
    have hcs : ∀ x ∈ c, isSpace x = false := by
      intro x hx
      exact htw.2 x (by rw [ht]; simp [hx])
    have hns : ∀ x ∈ nm, isSpace x = false := by
      intro x hx
      exact htw.2 x (by rw [ht]; simp [hx])
    refine ⟨"Alias name or command cannot be empty\n".toList, by decide, ?_⟩
    unfold defineAlias
    simp only [ht, splitN2_eq nm c hnm, trimSpace_nonspace nm hns, trimSpace_nonspace c hcs]
    rw [if_pos]
    rcases hempty with hnm0 | hq
    · exact Or.inl hnm0
    · exact Or.inr (trim_all_quotes c hq)

/-- Witness for C6: the definition `ll=''`, whose command is empty once the
quotes are stripped. -/
theorem C6_malformed_alias_rejected_witness :
    ∃ msg, msg ≠ [] ∧
      execInput Env.ok (Shell.init []) "alias ll=''\n".toList
        = ⟨{ Shell.init [] with stderr := (Shell.init []).stderr ++ msg }, .returned none⟩ :=
  C6_malformed_alias_rejected Env.ok (Shell.init []) "alias ll=''\n".toList ["ll=''".toList]
    (by decide)
    (Or.inr ⟨"ll=''".toList, [], rfl, Or.inr ⟨"ll".toList, "''".toList, by decide, by decide,
      Or.inr (by unfold IsQuote; decide)⟩⟩)

/-- C7 (the claim as stated fails): after `alias alias=rm` the table holds an
entry named `alias`.  The line `alias ll=ls` then leaves a table that still
maps `alias` to `rm`, while run on the table without that entry it leaves a
table with no entry named `alias`: the two resulting tables differ. -/
theorem C7_counterexample :
    (execInput Env.ok (execInput Env.ok (Shell.init []) "alias alias=rm".toList).shell
        "alias ll=ls".toList).shell.aliases "alias".toList = some "rm".toList ∧
    (execInput Env.ok
        { (execInput Env.ok (Shell.init []) "alias alias=rm".toList).shell with
          aliases := (execInput Env.ok (Shell.init [])
            "alias alias=rm".toList).shell.aliases.erase "alias".toList }
        "alias ll=ls".toList).shell.aliases "alias".toList = none ∧
    (execInput Env.ok (execInput Env.ok (Shell.init []) "alias alias=rm".toList).shell
        "alias ll=ls".toList).shell.aliases
      ≠ (execInput Env.ok
        { (execInput Env.ok (Shell.init []) "alias alias=rm".toList).shell with
          aliases := (execInput Env.ok (Shell.init [])
            "alias alias=rm".toList).shell.aliases.erase "alias".toList }
        "alias ll=ls".toList).shell.aliases := by
  refine ⟨by decide, by decide, fun h => ?_⟩
  exact absurd (congrFun h "alias".toList) (by decide)

/-- C7 (amended): on a line whose first token is `alias`, whatever the table
holds under the name `alias`, `execInput` performs the definition.  It returns
no error, requests no directory change and runs no program.  When the next
token is `n`, a `=`, and the command `c` typed bare or between quote
characters, with `n` and `c` not empty, it stores `c` under `n` and appends
`Alias '<n>' set to '<c>'` and a newline to standard output.  Compared with the
run on the table without its entry named `alias`, the outcome and the text on
both streams are the same, and so is the resulting table at every name, except
that the old entry named `alias` stays unless the line itself sets it. -/
theorem C7_alias_keyword_not_hijacked (env : Env) (w : Shell) (line : Str) (rest : List Str)
    (h : fields line = "alias".toList :: rest) :
    (execInput env w line).outcome = .returned none ∧
    (execInput env w line).shell.calls = w.calls ∧
    (execInput env w line).shell.cwd = w.cwd ∧
    (∀ n raw c more, rest = (n ++ '=' :: raw) :: more → '=' ∉ n → n ≠ [] → Quoted raw c →
      (∀ x, c.head? = some x → ¬ IsQuote x) → (∀ x, c.getLast? = some x → ¬ IsQuote x) →
      c ≠ [] →
      (execInput env w line).shell.aliases n = some c ∧
      (execInput env w line).shell.stdout
        = w.stdout ++ ("Alias '".toList ++ n ++ "' set to '".toList ++ c ++ "'\n".toList) ∧
      (execInput env w line).shell.stderr = w.stderr) ∧
    (execInput env w line).outcome
      = (execInput env { w with aliases := w.aliases.erase "alias".toList } line).outcome ∧
    (execInput env w line).shell.stdout
      = (execInput env { w with aliases := w.aliases.erase "alias".toList } line).shell.stdout ∧
    (execInput env w line).shell.stderr
      = (execInput env { w with aliases := w.aliases.erase "alias".toList } line).shell.stderr ∧
    ∀ k, (execInput env w line).shell.aliases k =
      if k = "alias".toList then
        ((execInput env { w with aliases := w.aliases.erase "alias".toList }
          line).shell.aliases k).orElse (fun _ => w.aliases k)
      else
        (execInput env { w with aliases := w.aliases.erase "alias".toList } line).shell.aliases k
    := by
  obtain ⟨h1, h2, h3, h4, h5, h6, h7⟩ := execInput_alias_erase env w line rest h
  refine ⟨h1, h2, h3, ?_, h4, h5, h6, h7⟩
  intro n raw c more hrest hne hn hq hhead hlast hc
  have hf : fields line = "alias".toList :: (n ++ '=' :: raw) :: more := by rw [h, hrest]
  have htw : IsWord (n ++ '=' :: raw) := fields_words line _ (by rw [hf]; simp)
  have hns : ∀ x ∈ n, isSpace x = false := fun x hx => htw.2 x (by simp [hx])
  have hrs : ∀ x ∈ raw, isSpace x = false := fun x hx => htw.2 x (by simp [hx])
  have htrim : trim raw "'\"".toList = c := by
    obtain ⟨ql, qr, hraw, hql, hqr⟩ := hq
    rw [hraw]
    exact trim_wrapped ql c qr hql hqr hhead hlast
  rw [execInput_of_fields env w line _ _ hf, if_pos rfl,
    defineAlias_accept w n raw more ⟨hn, hns⟩ hne hrs (by rw [htrim]; exact hc), htrim]
  refine ⟨?_, rfl, rfl⟩
  show (if n = n then some c else w.aliases n) = some c
  rw [if_pos rfl]

/-- Witness for C7 (amended): the line `alias ll='ls'` in a state where `alias`
is itself an alias name, for `rm`: `ls` is stored under `ll`, the confirmation
is written, and nothing is run. -/
theorem C7_alias_keyword_not_hijacked_witness :
    (execInput Env.ok { Shell.init [] with
        aliases := AliasTable.empty.set "alias".toList "rm".toList }
      "alias ll='ls'\n".toList).outcome = .returned none ∧
    (execInput Env.ok { Shell.init [] with
        aliases := AliasTable.empty.set "alias".toList "rm".toList }
      "alias ll='ls'\n".toList).shell.calls = [] ∧
    (execInput Env.ok { Shell.init [] with
        aliases := AliasTable.empty.set "alias".toList "rm".toList }
      "alias ll='ls'\n".toList).shell.aliases "ll".toList = some "ls".toList ∧
    (execInput Env.ok { Shell.init [] with
        aliases := AliasTable.empty.set "alias".toList "rm".toList }
      "alias ll='ls'\n".toList).shell.stdout = [] ++ ("Alias '".toList ++ "ll".toList
        ++ "' set to '".toList ++ "ls".toList ++ "'\n".toList) :=
  have hw := C7_alias_keyword_not_hijacked Env.ok
    { Shell.init [] with aliases := AliasTable.empty.set "alias".toList "rm".toList }
    "alias ll='ls'\n".toList ["ll='ls'".toList] (by decide)
  have hd := hw.2.2.2.1 "ll".toList "'ls'".toList "ls".toList [] (by decide) (by decide)
    (by decide) ⟨"'".toList, "'".toList, by decide, by decide, by decide⟩ (by decide)
    (by decide) (by decide)
  ⟨hw.1, hw.2.1, hd.1, hd.2.1⟩

/-- C8: for a name `n` and commands `c1`, `c2`, typed bare or between quote
characters, after `alias n=c1` and then `alias n=c2` the table maps `n` to
`c2`, and the table is the one that `alias n=c2` alone gives from the original
state. -/
theorem C8_last_write_wins (env : Env) (w : Shell) (n raw1 c1 raw2 c2 : Str)
    (hn : IsWord n) (hne : '=' ∉ n)
    (hc1 : IsCommand c1) (hq1 : Quoted raw1 c1) (hc2 : IsCommand c2) (hq2 : Quoted raw2 c2) :
    (execInput env (execInput env w (join [' '] ["alias".toList, n ++ '=' :: raw1])).shell
        (join [' '] ["alias".toList, n ++ '=' :: raw2])).shell.aliases n = some c2 ∧
    (execInput env (execInput env w (join [' '] ["alias".toList, n ++ '=' :: raw1])).shell
        (join [' '] ["alias".toList, n ++ '=' :: raw2])).shell.aliases
      = (execInput env w (join [' '] ["alias".toList, n ++ '=' :: raw2])).shell.aliases := by
  rw [execInput_alias_line env w n raw1 c1 hn hne hc1 hq1,
    execInput_alias_line env _ n raw2 c2 hn hne hc2 hq2,
    execInput_alias_line env w n raw2 c2 hn hne hc2 hq2]
  exact ⟨by simp [AliasTable.set], AliasTable.set_set w.aliases n c1 c2⟩

/-- Witness for C8: `alias ll='ls'` followed by `alias ll=dir`. -/
theorem C8_last_write_wins_witness :
    (execInput Env.ok (execInput Env.ok (Shell.init [])
        (join [' '] ["alias".toList, "ll".toList ++ '=' :: "'ls'".toList])).shell
        (join [' '] ["alias".toList, "ll".toList ++ '=' :: "dir".toList])).shell.aliases
        "ll".toList = some "dir".toList ∧
    (execInput Env.ok (execInput Env.ok (Shell.init [])
        (join [' '] ["alias".toList, "ll".toList ++ '=' :: "'ls'".toList])).shell
        (join [' '] ["alias".toList, "ll".toList ++ '=' :: "dir".toList])).shell.aliases
      = (execInput Env.ok (Shell.init [])
        (join [' '] ["alias".toList, "ll".toList ++ '=' :: "dir".toList])).shell.aliases :=
  C8_last_write_wins Env.ok (Shell.init []) "ll".toList "'ls'".toList "ls".toList
    "dir".toList "dir".toList (by decide) (by decide)
    ⟨by decide, by decide, by decide⟩
    ⟨"'".toList, "'".toList, by decide, by decide, by decide⟩
    ⟨by decide, by decide, by decide⟩
    ⟨[], [], by decide, by decide, by decide⟩

/-- C9 (the claim as stated fails): in a table where `alias` maps to `ls` and
`ls` maps to `echo`, the line `alias x=y` is read as a definition of `x`; no
program is run, whereas dispatching on `ls` would run `ls`. -/
theorem C9_counterexample :
    (execInput Env.ok (execInput Env.ok (Shell.init []) "alias alias=ls".toList).shell
        "alias ls=echo".toList).shell.aliases "alias".toList = some "ls".toList ∧
    (execInput Env.ok (execInput Env.ok (Shell.init []) "alias alias=ls".toList).shell
        "alias ls=echo".toList).shell.aliases "ls".toList = some "echo".toList ∧
    (execInput Env.ok
        (execInput Env.ok (execInput Env.ok (Shell.init []) "alias alias=ls".toList).shell
          "alias ls=echo".toList).shell
        "alias x=y".toList).shell.calls = [] ∧
    (dispatch Env.ok
        (execInput Env.ok (execInput Env.ok (Shell.init []) "alias alias=ls".toList).shell
          "alias ls=echo".toList).shell
        ["ls".toList, "x=y".toList]).shell.calls = [Call.run "ls".toList ["x=y".toList]] ∧
    (execInput Env.ok
        (execInput Env.ok (execInput Env.ok (Shell.init []) "alias alias=ls".toList).shell
          "alias ls=echo".toList).shell
        "alias x=y".toList).shell.aliases "x".toList = some "y".toList := by
  decide

/-- C9 (amended): let the first token `a` of the line be other than `alias` and
map to a command whose first word `b` is itself an alias name.  Then
`execInput` does what the built-in and program dispatch does on the words of
that command followed by the other tokens of the line, `b` first and taken
literally; when `b` is neither `cd` nor `exit`, the one request made is to run
the program `b` with those arguments. -/
theorem C9_no_recursive_expansion (env : Env) (w : Shell) (line a v b u : Str)
    (args vs : List Str) (h : fields line = a :: args) (ha : a ≠ "alias".toList)
    (hv : w.aliases a = some v) (hb : fields v = b :: vs) (_hu : w.aliases b = some u) :
    execInput env w line = dispatch env w (b :: (vs ++ args)) ∧
    (b ≠ "cd".toList → b ≠ "exit".toList →
      (execInput env w line).shell.calls = w.calls ++ [Call.run b (vs ++ args)]) := by
  have hexec : execInput env w line = dispatch env w (b :: (vs ++ args)) := by
    rw [execInput_of_fields env w line a args h, if_neg ha,
      resolveAlias_some _ a v args (rest_words line a args h) hv, hb]
    rfl
  refine ⟨hexec, fun hcd hexit => ?_⟩
  rw [hexec, dispatch_run env w b _ hcd hexit]

/-- Witness for C9 (amended): `ll` is an alias for `ls -l` and `ls` an alias for
`echo`; the line `ll /tmp` runs `ls`, not `echo`. -/
theorem C9_no_recursive_expansion_witness :
    execInput Env.ok
        { Shell.init [] with aliases :=
            (AliasTable.empty.set "ll".toList "ls -l".toList).set "ls".toList "echo".toList }
        "ll /tmp\n".toList
      = dispatch Env.ok
        { Shell.init [] with aliases :=
            (AliasTable.empty.set "ll".toList "ls -l".toList).set "ls".toList "echo".toList }
        ["ls".toList, "-l".toList, "/tmp".toList] ∧
    (execInput Env.ok
        { Shell.init [] with aliases :=
            (AliasTable.empty.set "ll".toList "ls -l".toList).set "ls".toList "echo".toList }
        "ll /tmp\n".toList).shell.calls
      = [Call.run "ls".toList ["-l".toList, "/tmp".toList]] :=
  have hw := C9_no_recursive_expansion Env.ok
    { Shell.init [] with aliases :=
        (AliasTable.empty.set "ll".toList "ls -l".toList).set "ls".toList "echo".toList }
    "ll /tmp\n".toList "ll".toList "ls -l".toList "ls".toList "echo".toList
    ["/tmp".toList] ["-l".toList] (by decide) (by decide) (by decide) (by decide) (by decide)
  ⟨hw.1, hw.2 (by decide) (by decide)⟩

/-- C10: when the tokens of the line are `n` followed by `args`, with `n` other
than `alias` and mapped to the command string `v`, the token list that the
alias lookup yields, and on which `execInput` dispatches, is the list of words
of `v` followed by `args` in their order; the white space that separated the
tokens in the line plays no part. -/
theorem C10_resolved_tokens (env : Env) (w : Shell) (line n v : Str) (args : List Str)
    (h : fields line = n :: args) (hn : n ≠ "alias".toList) (hv : w.aliases n = some v) :
    resolveAlias w.aliases n args = fields v ++ args ∧
    execInput env w line = dispatch env w (fields v ++ args) := by
  have hres := resolveAlias_some w.aliases n v args (rest_words line n args h) hv
  refine ⟨hres, ?_⟩
  rw [execInput_of_fields env w line n args h, if_neg hn, hres]

/-- Witness for C10: `ll` maps to `ls  -la` (two spaces); the line
`ll` tab `/tmp` space space `/var` yields the tokens `ls -la /tmp /var`. -/
theorem C10_resolved_tokens_witness :
    fields "  ll\t/tmp  /var \n".toList = ["ll".toList, "/tmp".toList, "/var".toList] ∧
    resolveAlias (AliasTable.empty.set "ll".toList "ls  -la".toList) "ll".toList
        ["/tmp".toList, "/var".toList]
      = fields "ls  -la".toList ++ ["/tmp".toList, "/var".toList] ∧
    execInput Env.ok
        { Shell.init [] with aliases := AliasTable.empty.set "ll".toList "ls  -la".toList }
        "  ll\t/tmp  /var \n".toList
      = dispatch Env.ok
        { Shell.init [] with aliases := AliasTable.empty.set "ll".toList "ls  -la".toList }
        (fields "ls  -la".toList ++ ["/tmp".toList, "/var".toList]) :=
  ⟨by decide,
    C10_resolved_tokens Env.ok
      { Shell.init [] with aliases := AliasTable.empty.set "ll".toList "ls  -la".toList }
      "  ll\t/tmp  /var \n".toList "ll".toList "ls  -la".toList
      ["/tmp".toList, "/var".toList] (by decide) (by decide) (by decide)⟩

/-- C11: on a line that is empty or made of white space only, `execInput`
returns no error and leaves the whole state as it was: nothing is written to
either stream, no directory change or program run is requested, and the alias
table is unchanged. -/
theorem C11_blank_line_is_noop (env : Env) (w : Shell) (line : Str)
    (h : ∀ c ∈ line, isSpace c = true) :
    execInput env w line = ⟨w, .returned none⟩ := by
  unfold execInput
  simp only [trimSpace_blank line h, if_true]

/-- Witness for C11: the line made of a space, a tab, a no-break space and a
newline. -/
theorem C11_blank_line_is_noop_witness :
    execInput Env.ok (Shell.init "/tmp".toList) " \t \n".toList
      = ⟨Shell.init "/tmp".toList, .returned none⟩ :=
  C11_blank_line_is_noop Env.ok (Shell.init "/tmp".toList) " \t \n".toList (by decide)

/-- C12: when `cd` is not an alias name and the first token of the line is `cd`.
With no further token and no home directory, the error
`failed to get home directory: ...` is returned and the state is unchanged.
With no further token and home directory `home`, the one request made is a
change to `home`; with a further token `p`, the one request made is a change to
`p` as typed.  In both cases a failing change returns the error of the
operating system and leaves the working directory as it was, and a successful
one returns no error. -/
theorem C12_cd_builtin (env : Env) (w : Shell) (line : Str) (rest : List Str)
    (h : fields line = "cd".toList :: rest) (hcd : w.aliases "cd".toList = none) :
    (rest = [] → ∀ e, env.userHomeDir = .error e →
      execInput env w line
        = ⟨w, .returned (some ("failed to get home directory: ".toList ++ e))⟩) ∧
    (rest = [] → ∀ home, env.userHomeDir = .ok home →
      (execInput env w line).shell.calls = w.calls ++ [Call.chdir home] ∧
      (∀ e, env.chdir w.cwd home = .error e →
        execInput env w line
          = ⟨{ w with calls := w.calls ++ [Call.chdir home] }, .returned (some e)⟩) ∧
      (∀ dir, env.chdir w.cwd home = .ok dir →
        execInput env w line
          = ⟨{ w with cwd := dir, calls := w.calls ++ [Call.chdir home] }, .returned none⟩)) ∧
    (∀ p more, rest = p :: more →
      (execInput env w line).shell.calls = w.calls ++ [Call.chdir p] ∧
      (∀ e, env.chdir w.cwd p = .error e →
        execInput env w line
          = ⟨{ w with calls := w.calls ++ [Call.chdir p] }, .returned (some e)⟩) ∧
      (∀ dir, env.chdir w.cwd p = .ok dir →
        execInput env w line
          = ⟨{ w with cwd := dir, calls := w.calls ++ [Call.chdir p] }, .returned none⟩)) := by
  have hexec : execInput env w line = dispatch env w ("cd".toList :: rest) := by
    rw [execInput_of_fields env w line _ rest h, if_neg (by decide),
      resolveAlias_none _ _ _ hcd]
  refine ⟨?_, ?_, ?_⟩
  · intro hrest e he
    rw [hexec, hrest, dispatch_cd_home, he]
  · intro hrest home hhome
    rw [hexec, hrest, dispatch_cd_home, hhome]
    refine ⟨?_, ?_, ?_⟩
    · cases hch : env.chdir w.cwd home <;> simp only [hch]
    · intro e he
      simp only [he]
    · intro dir hdir
      simp only [hdir]
  · intro p more hrest
    rw [hexec, hrest, dispatch_cd_path]
    refine ⟨?_, ?_, ?_⟩
    · cases hch : env.chdir w.cwd p <;> simp only [hch]
    · intro e he
      simp only [he]
    · intro dir hdir
      simp only [hdir]

/-- Witness for C12: `cd /nonexistent-path` where no directory can be entered. -/
theorem C12_cd_builtin_witness :
    execInput Env.failing (Shell.init "/tmp".toList) "cd /nonexistent-path\n".toList
      = ⟨{ Shell.init "/tmp".toList with
            calls := (Shell.init "/tmp".toList).calls ++ [Call.chdir "/nonexistent-path".toList] },
          .returned (some "chdir /nonexistent-path: no such file or directory".toList)⟩ :=
  ((C12_cd_builtin Env.failing (Shell.init "/tmp".toList) "cd /nonexistent-path\n".toList
      ["/nonexistent-path".toList] (by decide) rfl).2.2
    "/nonexistent-path".toList [] rfl).2.1 _ rfl

/-- C13: let the first token of the line be other than `alias` and let the
tokens after alias resolution be `c :: args` with `c` neither `cd` nor `exit`.
Then `execInput` asks for one run of `c` with `args` and returns to its caller:
if the run fails with error `e` it returns the error
`failed to execute '<c>': <e>`, which `main` prints to standard error after
`Command error:`; if the run succeeds it returns no error. -/
theorem C13_external_failure_reported (env : Env) (w : Shell) (line a0 c : Str)
    (rest args : List Str) (h : fields line = a0 :: rest) (ha : a0 ≠ "alias".toList)
    (hres : resolveAlias w.aliases a0 rest = c :: args)
    (hcd : c ≠ "cd".toList) (hexit : c ≠ "exit".toList) :
    (execInput env w line).shell.calls = w.calls ++ [Call.run c args] ∧
    (∀ e, env.run w.cwd c args = some e →
      (execInput env w line).outcome
        = .returned (some ("failed to execute '".toList ++ c ++ "': ".toList ++ e)) ∧
      (reportError (execInput env w line)).stderr
        = w.stderr ++ ("Command error: ".toList
          ++ ("failed to execute '".toList ++ c ++ "': ".toList ++ e) ++ "\n".toList)) ∧
    (env.run w.cwd c args = none → (execInput env w line).outcome = .returned none) := by
  rw [execInput_of_fields env w line a0 rest h, if_neg ha, hres,
    dispatch_run env w c args hcd hexit]
  refine ⟨rfl, ?_, ?_⟩
  · intro e he
    simp only [he, reportError]
    exact ⟨trivial, trivial⟩
  · intro hnone
    simp only [hnone]

/-- Witness for C13: `nonexistent-binary-xyz` where no program can be run. -/
theorem C13_external_failure_reported_witness :
    (execInput Env.failing (Shell.init "/tmp".toList) "nonexistent-binary-xyz\n".toList).outcome
      = .returned (some ("failed to execute 'nonexistent-binary-xyz': exec: ".toList
          ++ "\"nonexistent-binary-xyz\": executable file not found in $PATH".toList)) :=
  ((C13_external_failure_reported Env.failing (Shell.init "/tmp".toList)
      "nonexistent-binary-xyz\n".toList "nonexistent-binary-xyz".toList
      "nonexistent-binary-xyz".toList [] [] (by decide) (by decide) (by decide) (by decide)
      (by decide)).2.1 _ rfl).1

/-- C14: in every state reached by `execInput` calls from an empty alias table,
and for every line and every behaviour of the operating system, `execInput`
ends the process, with status 0, exactly when the first token of the line is
not `alias` and the first token after alias resolution is `exit`; on every
other line it returns to its caller, with or without an error. -/
theorem C14_only_exit_terminates (w0 : Shell) (steps : List (Env × Str)) (env : Env)
    (line : Str) (h0 : w0.aliases = AliasTable.empty) :
    ((execInput env (execInputs w0 steps) line).outcome = .exited 0 ↔
      ∃ a0 rest args, fields line = a0 :: rest ∧ a0 ≠ "alias".toList ∧
        resolveAlias (execInputs w0 steps).aliases a0 rest = "exit".toList :: args) ∧
    ((execInput env (execInputs w0 steps) line).outcome ≠ .exited 0 →
      ∃ err, (execInput env (execInputs w0 steps) line).outcome = .returned err) :=
  execInput_exit_iff env (execInputs w0 steps) line
    (wellFormed_fields _ (execInputs_wellFormed steps w0 (by rw [h0]; exact wellFormed_empty)))

/-- Witness for C14: after `alias q=exit` and a failing `cd`, the line `q now`
ends the process with status 0. -/
theorem C14_only_exit_terminates_witness :
    (execInput Env.failing
        (execInputs (Shell.init [])
          [(Env.ok, "alias q=exit\n".toList), (Env.failing, "cd /nowhere\n".toList)])
        "q now\n".toList).outcome = .exited 0 :=
  (C14_only_exit_terminates (Shell.init [])
      [(Env.ok, "alias q=exit\n".toList), (Env.failing, "cd /nowhere\n".toList)]
      Env.failing "q now\n".toList rfl).1.mpr
    ⟨"q".toList, ["now".toList], ["now".toList], by decide, by decide, by decide⟩

/-- C15: `execInput` deletes no entry of the alias table; a line whose first token
is not `alias` leaves the table as it was; and a line `alias n=...` leaves
every entry other than the one for `n` as it was. -/
theorem C15_table_frame (env : Env) (w : Shell) (line : Str) :
    (∀ k, (w.aliases k).isSome = true → ((execInput env w line).shell.aliases k).isSome = true) ∧
    ((fields line).head? ≠ some "alias".toList →
      (execInput env w line).shell.aliases = w.aliases) ∧
    (∀ n raw more, fields line = "alias".toList :: (n ++ '=' :: raw) :: more → '=' ∉ n →
      ∀ k, k ≠ n → (execInput env w line).shell.aliases k = w.aliases k) := by
  refine ⟨?_, ?_, ?_⟩
  · intro k hk
    rcases execInput_aliases env w line with hsame | ⟨rest, n, c, _, hset⟩
    · rw [hsame]
      exact hk
    · rw [hset]
      by_cases hkn : k = n <;> simp [AliasTable.set, hkn, hk]
  · intro hhead
    rcases execInput_aliases env w line with hsame | ⟨rest, n, c, hf, _⟩
    · exact hsame
    · rw [hf] at hhead
      exact absurd rfl hhead
  · intro n raw more hf hne k hk
    have htw : IsWord (n ++ '=' :: raw) := fields_words line _ (by rw [hf]; simp)
    have hns : ∀ x ∈ n, isSpace x = false := fun x hx => htw.2 x (by simp [hx])
    rw [execInput_of_fields env w line _ _ hf, if_pos rfl]
    unfold defineAlias
    simp only [splitN2_eq n raw hne, trimSpace_nonspace n hns]
    split_ifs
    · rfl
    · simp [AliasTable.set, hk]

/-- Witness for C15: `alias ll=ls` in a table that holds `la`. -/
theorem C15_table_frame_witness :
    (execInput Env.ok
        { Shell.init [] with aliases := AliasTable.empty.set "la".toList "ls".toList }
        "alias ll=ls\n".toList).shell.aliases "la".toList = some "ls".toList :=
  (C15_table_frame Env.ok
      { Shell.init [] with aliases := AliasTable.empty.set "la".toList "ls".toList }
      "alias ll=ls\n".toList).2.2 "ll".toList "ls".toList [] (by decide) (by decide)
    "la".toList (by decide)

/-- C16: let the tokens of the line be `alias` and `t`, where `t` is `n`, a
`=`, and `raw`, with no `=` in `n`, and let `c` be `raw` without its leading
and trailing quote characters.  If `n` and `c` are not empty, `execInput` sets
the entry `n` to `c`, appends `Alias '<n>' set to '<c>'` and a newline to
standard output, and returns no error; nothing else changes. -/
theorem C16_alias_definition_stored (env : Env) (w : Shell) (line n raw c : Str)
    (h : fields line = ["alias".toList, n ++ '=' :: raw]) (hne : '=' ∉ n) (hn : n ≠ [])
    (hq : Quoted raw c) (hhead : ∀ x, c.head? = some x → ¬ IsQuote x)
    (hlast : ∀ x, c.getLast? = some x → ¬ IsQuote x) (hc : c ≠ []) :
    execInput env w line =
      ⟨{ w with
          aliases := w.aliases.set n c
          stdout := w.stdout ++ ("Alias '".toList ++ n ++ "' set to '".toList ++ c
            ++ "'\n".toList) },
        .returned none⟩ := by
  have htw : IsWord (n ++ '=' :: raw) := fields_words line _ (by rw [h]; simp)
  have hns : ∀ x ∈ n, isSpace x = false := fun x hx => htw.2 x (by simp [hx])
  have hrs : ∀ x ∈ raw, isSpace x = false := fun x hx => htw.2 x (by simp [hx])
  have htrim : trim raw "'\"".toList = c := by
    obtain ⟨ql, qr, hraw, hql, hqr⟩ := hq
    rw [hraw]
    exact trim_wrapped ql c qr hql hqr hhead hlast
  rw [execInput_of_fields env w line _ _ h, if_pos rfl,
    defineAlias_accept w n raw [] ⟨hn, hns⟩ hne hrs (by rw [htrim]; exact hc), htrim]

/-- Witness for C16: `alias e="a=b"`, whose command holds a `=`. -/
theorem C16_alias_definition_stored_witness :
    execInput Env.ok (Shell.init []) "alias e=\"a=b\"\n".toList =
      ⟨{ Shell.init [] with
          aliases := (Shell.init []).aliases.set "e".toList "a=b".toList
          stdout := (Shell.init []).stdout ++ ("Alias '".toList ++ "e".toList
            ++ "' set to '".toList ++ "a=b".toList ++ "'\n".toList) },
        .returned none⟩ :=
  C16_alias_definition_stored Env.ok (Shell.init []) "alias e=\"a=b\"\n".toList "e".toList
    "\"a=b\"".toList "a=b".toList (by decide) (by decide) (by decide)
    ⟨"\"".toList, "\"".toList, by decide, by decide, by decide⟩
    (by decide) (by decide) (by decide)

/-- C17: after any sequence of `execInput` calls from a state with an empty
alias table, every stored command is a word (non-empty, free of white space)
and every stored name is a word without `=`; hence on every line that is not an
`alias` line the token list after alias resolution is not empty, and
`execInput` never reads a first token out of range. -/
theorem C17_reachable_tables_well_formed (w0 : Shell) (steps : List (Env × Str))
    (h0 : w0.aliases = AliasTable.empty) :
    (∀ n c, (execInputs w0 steps).aliases n = some c → IsWord c ∧ IsWord n ∧ '=' ∉ n) ∧
    (∀ line a0 rest, fields line = a0 :: rest → a0 ≠ "alias".toList →
      resolveAlias (execInputs w0 steps).aliases a0 rest ≠ []) ∧
    (∀ env line, (execInput env (execInputs w0 steps) line).outcome ≠ .panicked) := by
  have hwf : WellFormed (execInputs w0 steps).aliases :=
    execInputs_wellFormed steps w0 (by rw [h0]; exact wellFormed_empty)
  have hres : ∀ line a0 rest, fields line = a0 :: rest →
      resolveAlias (execInputs w0 steps).aliases a0 rest ≠ [] := fun line a0 rest h =>
    resolveAlias_ne_nil _ a0 rest (rest_words line a0 rest h) (wellFormed_fields _ hwf)
  refine ⟨fun n c hnc => ⟨(hwf n c hnc).2, (hwf n c hnc).1.1, (hwf n c hnc).1.2⟩,
    fun line a0 rest h _ => hres line a0 rest h, ?_⟩
  intro env line
  cases h : fields line with
  | nil =>
    rw [execInput_no_token env _ line h]
    exact fun hc => Outcome.noConfusion hc
  | cons a0 rest =>
    rw [execInput_of_fields env _ line a0 rest h]
    by_cases ha : a0 = "alias".toList
    · rw [if_pos ha, defineAlias_outcome]
      exact fun hc => Outcome.noConfusion hc
    · rw [if_neg ha]
      cases hr : resolveAlias (execInputs w0 steps).aliases a0 rest with
      | nil => exact absurd hr (hres line a0 rest h)
      | cons c args =>
        rcases dispatch_outcome env (execInputs w0 steps) c args with ⟨_, hout⟩ | ⟨_, err, hout⟩
        · rw [hout]
          exact fun hc => Outcome.noConfusion hc
        · rw [hout]
          exact fun hc => Outcome.noConfusion hc

/-- Witness for C17: after `alias ll='ls -la'` and `alias e=a=b`, the line `ll`
does not end in a panic. -/
theorem C17_reachable_tables_well_formed_witness :
    (execInput Env.failing
        (execInputs (Shell.init [])
          [(Env.ok, "alias ll='ls -la'\n".toList), (Env.failing, "alias e=a=b\n".toList)])
        "ll\n".toList).outcome ≠ .panicked :=
  (C17_reachable_tables_well_formed (Shell.init [])
    [(Env.ok, "alias ll='ls -la'\n".toList), (Env.failing, "alias e=a=b\n".toList)]
    rfl).2.2 Env.failing "ll\n".toList

/-- C18: when the tokens of the line are `alias`, `t1` and further tokens,
`execInput` gives the same result (state, with both streams and the alias
table, and outcome) as on the line `alias t1`. -/
theorem C18_later_tokens_ignored (env : Env) (w : Shell) (line t1 : Str) (more : List Str)
    (h : fields line = "alias".toList :: t1 :: more) :
    execInput env w line = execInput env w (join [' '] ["alias".toList, t1]) := by
  have ht1 : IsWord t1 := fields_words line t1 (by rw [h]; simp)
  rw [execInput_of_fields env w line _ _ h, if_pos rfl,
    execInput_join env w _ _ (by
      intro t ht
      rcases List.mem_cons.mp ht with ht | ht
      · rw [ht]; exact isWord_alias
      · rw [List.mem_singleton.mp ht]; exact ht1),
    if_pos rfl, defineAlias_first]

/-- Witness for C18: `alias ll='ls -la' extra` against `alias ll='ls`. -/
theorem C18_later_tokens_ignored_witness :
    execInput Env.ok (Shell.init []) "alias ll='ls -la' extra\n".toList
      = execInput Env.ok (Shell.init []) (join [' '] ["alias".toList, "ll='ls".toList]) :=
  C18_later_tokens_ignored Env.ok (Shell.init []) "alias ll='ls -la' extra\n".toList
    "ll='ls".toList ["-la'".toList, "extra".toList] (by decide)

end Minshell
